import Mathlib

/-!
# Moses hypothesis stack: recombination order and collection primitives

A shallow embedding of `src/HypothesisCollection.h`:

* `HypothesisRecombinationOrderer` and `HypothesisRecombinationComparer`,
  the two functors that decide which hypotheses are recombined;
* `HypothesisCollection`, whose member container `std::set<Hypothesis*,
  HypothesisRecombinationOrderer>` is represented by the list of its elements
  in iteration order, with the inline members `Detach`, `Remove`,
  `AddNoPrune`, `size`, `SetMaxHypoStackSize`, `SetBeamThreshold` and
  `GetBestScore`.

`Hypothesis.h` is not part of the sources at hand, so `Hypothesis::NGramCompare`
and `WordsBitmap::Compare` are parameters (`ngramCompare`, `bitmapCompare`) of
everything that calls them.  Scores are `float` in the source; they are only
stored and compared here, and are represented by rationals.
-/

namespace Moses

/-! ## Data model -/

/-- Scores (`float` in the source) are only stored and compared. -/
abbrev Score := Rat

/-- Modelled from the spec: the coverage bitmap (`WordsBitmap.h` is missing), a
bitset over the source positions with one flag per position. -/
abbrev WordsBitmap := List Bool

/-- Modelled from the spec: a hypothesis (`Hypothesis.h` is missing) with the
attributes of §3: score, language-model context, coverage.  The collection
stores `Hypothesis*`; `addr` stands for the pointer value, so two hypotheses
with the same contents and different addresses are different members. -/
structure Hypothesis where
  addr : Nat
  score : Score
  lmContext : List Nat
  coverage : WordsBitmap
deriving DecidableEq, Repr

/-- Modelled from the spec: the accessor `Hypothesis::GetWordsBitmap`
(`Hypothesis.h` is missing) returns the coverage bitmap. -/
def Hypothesis.GetWordsBitmap (h : Hypothesis) : WordsBitmap := h.coverage

/-- The recombination key of §3, `(lmContext, coverage)`: derived, not
stored. -/
def Hypothesis.recombinationKey (h : Hypothesis) : List Nat × WordsBitmap :=
  (h.lmContext, h.coverage)

/-! ## Recombination order (lines 32-67) -/

/-- `HypothesisRecombinationOrderer::operator()`: the less-than relation of
the member set. -/
def HypothesisRecombinationOrderer
    (ngramCompare : Hypothesis → Hypothesis → Int)
    (bitmapCompare : WordsBitmap → WordsBitmap → Int)
    (hypoA hypoB : Hypothesis) : Bool :=
  let ret := ngramCompare hypoA hypoB
  if ret ≠ 0 then
    decide (ret < 0)
  else
    let ret := bitmapCompare hypoA.GetWordsBitmap hypoB.GetWordsBitmap
    decide (ret < 0)

/-- `HypothesisRecombinationComparer::operator()`: true when `hypoA` can be
recombined with `hypoB`. -/
def HypothesisRecombinationComparer
    (ngramCompare : Hypothesis → Hypothesis → Int)
    (bitmapCompare : WordsBitmap → WordsBitmap → Int)
    (hypoA hypoB : Hypothesis) : Bool :=
  if ngramCompare hypoA hypoB ≠ 0 then false
  else decide (bitmapCompare hypoA.GetWordsBitmap hypoB.GetWordsBitmap = 0)

/-- A three-way comparison: the result is 0 exactly on arguments with the same
key, and swapping the arguments flips the sign. -/
structure ThreeWay {α κ : Type} (cmp : α → α → Int) (key : α → κ) : Prop where
  zero_iff : ∀ a b, cmp a b = 0 ↔ key a = key b
  antisymm : ∀ a b, (cmp a b).sign = -(cmp b a).sign

/-- A consistent three-way comparison is moreover transitive. -/
structure Consistent {α κ : Type} (cmp : α → α → Int) (key : α → κ)
    extends ThreeWay cmp key : Prop where
  trans : ∀ a b c, cmp a b < 0 → cmp b c < 0 → cmp a c < 0

/-- Modelled from the spec: a word-by-word (positional) three-way comparison of
two sequences, standing for the bodies of `Hypothesis::NGramCompare` and
`WordsBitmap::Compare`, which live in files that are not at hand. -/
def lexCompare {α : Type} [LinearOrder α] : List α → List α → Int
  | [], [] => 0
  | [], _ :: _ => -1
  | _ :: _, [] => 1
  | x :: xs, y :: ys =>
    if x < y then -1 else if y < x then 1 else lexCompare xs ys

/-- Modelled from the spec: `Hypothesis::NGramCompare` (declared in
`Hypothesis.h`, absent) compares the language-model contexts word by word. -/
def Hypothesis.NGramCompare (a b : Hypothesis) : Int :=
  lexCompare a.lmContext b.lmContext

/-- Modelled from the spec: `WordsBitmap::Compare` (declared in
`WordsBitmap.h`, absent) compares the coverage bitmaps positionally. -/
def WordsBitmap.Compare (a b : WordsBitmap) : Int :=
  lexCompare a b

/-! ## The collection (lines 77-172) -/

/-- Modelled from the spec: `ObjectPool<Hypothesis>` (absent) is represented by
the log of the objects handed back to it. -/
abbrev ObjectPool := List Hypothesis

/-- Modelled from the spec: `ObjectPool::freeObject` hands one object back. -/
def ObjectPool.freeObject (pool : ObjectPool) (h : Hypothesis) : ObjectPool :=
  h :: pool

/-- How often `h` has been handed back to the pool. -/
def ObjectPool.freeCount (pool : ObjectPool) (h : Hypothesis) : Nat :=
  pool.count h

/-- The data members of `HypothesisCollection`.  `m_hypos` lists the elements
of the `std::set` in iteration order. -/
structure HypothesisCollection where
  m_bestScore : Score
  m_worstScore : Score
  m_beamThreshold : Score
  m_maxHypoStackSize : Nat
  m_hypos : List Hypothesis
  m_nBestIsEnabled : Bool
deriving DecidableEq, Repr

/-- Program state: one collection and the global object pool
(`Hypothesis::GetObjectPool()`). -/
structure State where
  coll : HypothesisCollection
  pool : ObjectPool
deriving DecidableEq, Repr

/-- `std::set::insert` on the ordered element list: walk past the elements
that are less than `x`; stop without inserting at an element equivalent to `x`;
otherwise put `x` before the first element greater than `x`.  The flag is the
`.second` of the returned pair. -/
def setInsert (lt : Hypothesis → Hypothesis → Bool) (x : Hypothesis) :
    List Hypothesis → List Hypothesis × Bool
  | [] => ([x], true)
  | y :: ys =>
    if lt y x then
      let r := setInsert lt x ys
      (y :: r.1, r.2)
    else if lt x y then (x :: y :: ys, true)
    else (y :: ys, false)

/-- `HypothesisCollection::size`. -/
def HypothesisCollection.size (c : HypothesisCollection) : Nat := c.m_hypos.length

/-- `HypothesisCollection::Detach`: `m_hypos.erase(iter)`.  An iterator is the
position of a member; one that points at no member gives no result. -/
def Detach (st : State) (iter : Nat) : Option State :=
  if iter < st.coll.m_hypos.length then
    some { st with coll := { st.coll with m_hypos := st.coll.m_hypos.eraseIdx iter } }
  else none

/-- `HypothesisCollection::Remove`: free `*iter` in the pool, then `Detach`. -/
def Remove (st : State) (iter : Nat) : Option State :=
  match st.coll.m_hypos[iter]? with
  | none => none
  | some h => Detach { st with pool := st.pool.freeObject h } iter

/-- `HypothesisCollection::AddNoPrune`: insert into the set; the branch taken
when the insertion fails is empty. -/
def AddNoPrune
    (ngramCompare : Hypothesis → Hypothesis → Int)
    (bitmapCompare : WordsBitmap → WordsBitmap → Int)
    (st : State) (hypothesis : Hypothesis) : State :=
  let r := setInsert (HypothesisRecombinationOrderer ngramCompare bitmapCompare)
    hypothesis st.coll.m_hypos
  let st' : State := { st with coll := { st.coll with m_hypos := r.1 } }
  if !r.2 then st' else st'

/-- `HypothesisCollection::SetMaxHypoStackSize`. -/
def SetMaxHypoStackSize (c : HypothesisCollection) (maxHypoStackSize : Nat) :
    HypothesisCollection :=
  { c with m_maxHypoStackSize := maxHypoStackSize }

/-- `HypothesisCollection::SetBeamThreshold`. -/
def SetBeamThreshold (c : HypothesisCollection) (beamThreshold : Score) :
    HypothesisCollection :=
  { c with m_beamThreshold := beamThreshold }

/-- `HypothesisCollection::GetBestScore`. -/
def GetBestScore (c : HypothesisCollection) : Score := c.m_bestScore

/-- The representation invariant of the `std::set`: the elements are listed in
strictly increasing order of `HypothesisRecombinationOrderer`. -/
def WellFormed
    (ngramCompare : Hypothesis → Hypothesis → Int)
    (bitmapCompare : WordsBitmap → WordsBitmap → Int)
    (c : HypothesisCollection) : Prop :=
  c.m_hypos.Pairwise
    (fun a b => HypothesisRecombinationOrderer ngramCompare bitmapCompare a b = true)

/-- No two members (at different positions) have the same recombination key. -/
def UniqueKeys (l : List Hypothesis) : Prop :=
  l.Pairwise (fun a b => a.recombinationKey ≠ b.recombinationKey)

/-- One call of a mutating primitive of the collection. -/
inductive Op where
  | addNoPrune (hypothesis : Hypothesis)
  | detach (iter : Nat)
  | remove (iter : Nat)
deriving DecidableEq, Repr

/-- Perform one call. -/
def step
    (ngramCompare : Hypothesis → Hypothesis → Int)
    (bitmapCompare : WordsBitmap → WordsBitmap → Int)
    (st : State) : Op → Option State
  | .addNoPrune h => some (AddNoPrune ngramCompare bitmapCompare st h)
  | .detach i => Detach st i
  | .remove i => Remove st i

/-- Perform a sequence of calls, first call first. -/
def run
    (ngramCompare : Hypothesis → Hypothesis → Int)
    (bitmapCompare : WordsBitmap → WordsBitmap → Int) :
    List Op → State → Option State
  | [], st => some st
  | op :: ops, st =>
    match step ngramCompare bitmapCompare st op with
    | none => none
    | some st' => run ngramCompare bitmapCompare ops st'

/-- Whether a call is one of the two removals. -/
def Op.isRemoval : Op → Bool
  | .addNoPrune _ => false
  | .detach _ => true
  | .remove _ => true

/-- Sample hypotheses: `hypA` and `hypB` share their recombination key and
score 5 and 7; `hypC` has another language-model context. -/
def hypA : Hypothesis := ⟨1, 5, [3, 4], [true, false]⟩

/-- See `hypA`. -/
def hypB : Hypothesis := ⟨2, 7, [3, 4], [true, false]⟩

/-- See `hypA`. -/
def hypC : Hypothesis := ⟨3, 1, [3, 5], [true, false]⟩

/-- A sample hypothesis whose key differs from those of `hypA`, `hypB`, `hypC`
in the coverage; it is ordered between `hypB` and `hypC`. -/
def hypD : Hypothesis := ⟨4, 9, [3, 4], [true, true]⟩

/-- An empty collection with the typical settings; the score bounds start at 0. -/
def emptyCollection : HypothesisCollection :=
  { m_bestScore := 0, m_worstScore := 0, m_beamThreshold := 3 / 100,
    m_maxHypoStackSize := 100, m_hypos := [], m_nBestIsEnabled := false }

/-- A state with two members and bounds that match their scores. -/
def sampleState : State :=
  { coll := { emptyCollection with m_bestScore := 7, m_worstScore := 1,
                                   m_hypos := [hypB, hypC] },
    pool := [] }

/-! ## `AddPrune` (declared at line 137, body not at hand) -/

/-- Modelled from the spec: the state that `AddPrune` works on.  The body of
`AddPrune` (`HypothesisCollection.cpp`) is missing; besides the collection and
the object pool the spec speaks of derivation arcs, kept here as pairs
(representative, arc), and of members archived by capacity pruning. -/
structure StackState where
  coll : HypothesisCollection
  pool : ObjectPool
  arcs : List (Hypothesis × Hypothesis)
  archived : List Hypothesis
deriving DecidableEq, Repr

/-- Modelled from the spec: demotion of `loser` in favour of `winner` (§4.2
step 2), whose body is missing: kept as an arc of the winner in n-best mode,
otherwise freed through the pool. -/
def demote (s : StackState) (winner loser : Hypothesis) : StackState :=
  if s.coll.m_nBestIsEnabled then { s with arcs := (winner, loser) :: s.arcs }
  else { s with pool := s.pool.freeObject loser }

/-- Modelled from the spec: the globally worst-scoring member (§4.2 step 4,
body missing); among equal scores the first in key order. -/
def worstMember : List Hypothesis → Option Hypothesis
  | [] => none
  | h :: t =>
    match worstMember t with
    | none => some h
    | some w => if w.score < h.score then some w else some h

/-- Modelled from the spec: remove the worst member `n` times (§4.2 step 4,
body missing); a removed member is archived in n-best mode and freed
otherwise. -/
def evictWorst : Nat → StackState → StackState
  | 0, s => s
  | n + 1, s =>
    match worstMember s.coll.m_hypos with
    | none => s
    | some w =>
      let coll' := { s.coll with m_hypos := s.coll.m_hypos.erase w }
      if s.coll.m_nBestIsEnabled then
        evictWorst n { s with coll := coll', archived := w :: s.archived }
      else
        evictWorst n { s with coll := coll', pool := s.pool.freeObject w }

/-- Modelled from the spec: capacity enforcement (§4.2 step 4, body missing):
when the member count exceeds the maximum, remove worst members until it does
not, and recompute the worst score from the members that remain. -/
def enforceCapacity (s : StackState) : StackState :=
  if s.coll.m_maxHypoStackSize < s.coll.m_hypos.length then
    let s1 := evictWorst (s.coll.m_hypos.length - s.coll.m_maxHypoStackSize) s
    match worstMember s1.coll.m_hypos with
    | none => s1
    | some w => { s1 with coll := { s1.coll with m_worstScore := w.score } }
  else s

/-- Modelled from the spec: `HypothesisCollection::AddPrune` (§4.2), whose body
is missing.  Step 1 looks the recombination key up; step 2 recombines with an
existing representative (as worded, without touching the score bounds); step 3
applies the beam test to a new class, inserts and updates the bounds; step 4
enforces the capacity.  The spec leaves the beam formula open, so the test is
the parameter `beamReject` (best score, threshold, candidate score); the index
order is the order of §4.1. -/
def AddPrune (beamReject : Score → Score → Score → Bool)
    (s : StackState) (hypothesis : Hypothesis) : StackState :=
  match s.coll.m_hypos.find?
      (fun m => decide (m.recombinationKey = hypothesis.recombinationKey)) with
  | some rep =>
    if rep.score < hypothesis.score then
      let members := s.coll.m_hypos.map (fun m => if m = rep then hypothesis else m)
      enforceCapacity (demote { s with coll := { s.coll with m_hypos := members } }
        hypothesis rep)
    else
      demote s rep hypothesis
  | none =>
    if s.coll.m_hypos ≠ [] ∧
        beamReject s.coll.m_bestScore s.coll.m_beamThreshold hypothesis.score = true then
      { s with pool := s.pool.freeObject hypothesis }
    else
      let members := (setInsert
        (HypothesisRecombinationOrderer Hypothesis.NGramCompare WordsBitmap.Compare)
        hypothesis s.coll.m_hypos).1
      let best := if s.coll.m_hypos = [] then hypothesis.score
        else max s.coll.m_bestScore hypothesis.score
      let worst := if s.coll.m_hypos = [] then hypothesis.score
        else min s.coll.m_worstScore hypothesis.score
      enforceCapacity { s with coll := { s.coll with
        m_hypos := members, m_bestScore := best, m_worstScore := worst } }

/-- A beam test for the examples: reject a score below best / threshold. -/
def sampleBeamReject (best threshold score : Score) : Bool :=
  decide (threshold ≠ 0 ∧ score < best / threshold)

/-- An empty stack with the typical settings. -/
def emptyStack : StackState :=
  { coll := emptyCollection, pool := [], arcs := [], archived := [] }

/-! ## Facts about three-way comparisons -/

theorem sign_flip (x y : Int) (h : x.sign = -y.sign) :
    (x < 0 ↔ 0 < y) ∧ (x = 0 ↔ y = 0) ∧ (0 < x ↔ y < 0) := by
  rcases lt_trichotomy x 0 with hx | hx | hx <;>
    rcases lt_trichotomy y 0 with hy | hy | hy <;>
    simp [Int.sign_eq_neg_one_of_neg, Int.sign_eq_one_of_pos, hx, hy] at h <;>
    omega

theorem ThreeWay.neg_iff {α κ : Type} {cmp : α → α → Int} {key : α → κ}
    (h : ThreeWay cmp key) (a b : α) : cmp a b < 0 ↔ 0 < cmp b a :=
  (sign_flip _ _ (h.antisymm a b)).1

theorem ThreeWay.pos_iff {α κ : Type} {cmp : α → α → Int} {key : α → κ}
    (h : ThreeWay cmp key) (a b : α) : 0 < cmp a b ↔ cmp b a < 0 :=
  (sign_flip _ _ (h.antisymm a b)).2.2

theorem ThreeWay.zero_symm {α κ : Type} {cmp : α → α → Int} {key : α → κ}
    (h : ThreeWay cmp key) (a b : α) : cmp a b = 0 ↔ cmp b a = 0 :=
  (sign_flip _ _ (h.antisymm a b)).2.1

theorem ThreeWay.self_zero {α κ : Type} {cmp : α → α → Int} {key : α → κ}
    (h : ThreeWay cmp key) (a : α) : cmp a a = 0 :=
  (h.zero_iff a a).2 rfl

/-- A smaller element stays smaller when the larger one is replaced by one
with the same key. -/
theorem Consistent.neg_of_neg_of_zero {α κ : Type} {cmp : α → α → Int} {key : α → κ}
    (h : Consistent cmp key) {a b c : α} (hab : cmp a b < 0) (hbc : cmp b c = 0) :
    cmp a c < 0 := by
  rcases lt_trichotomy (cmp a c) 0 with hac | hac | hac
  · exact hac
  · have h1 : key a = key c := (h.zero_iff a c).1 hac
    have h2 : key b = key c := (h.zero_iff b c).1 hbc
    have h3 : cmp a b = 0 := (h.zero_iff a b).2 (h1.trans h2.symm)
    omega
  · have hca : cmp c a < 0 := (h.toThreeWay.pos_iff a c).1 hac
    have hcb : cmp c b < 0 := h.trans c a b hca hab
    have : cmp c b = 0 := (h.toThreeWay.zero_symm b c).1 hbc
    omega

/-- An element with the same key as a smaller one is smaller too. -/
theorem Consistent.neg_of_zero_of_neg {α κ : Type} {cmp : α → α → Int} {key : α → κ}
    (h : Consistent cmp key) {a b c : α} (hab : cmp a b = 0) (hbc : cmp b c < 0) :
    cmp a c < 0 := by
  rcases lt_trichotomy (cmp a c) 0 with hac | hac | hac
  · exact hac
  · have h1 : key a = key c := (h.zero_iff a c).1 hac
    have h2 : key a = key b := (h.zero_iff a b).1 hab
    have h3 : cmp b c = 0 := (h.zero_iff b c).2 (h2.symm.trans h1)
    omega
  · have hca : cmp c a < 0 := (h.toThreeWay.pos_iff a c).1 hac
    have hba : cmp b a < 0 := h.trans b c a hbc hca
    have : cmp b a = 0 := (h.toThreeWay.zero_symm a b).1 hab
    omega

/-! ## The positional comparison is a consistent three-way comparison -/

theorem lexCompare_eq_zero_iff {α : Type} [LinearOrder α] (a b : List α) :
    lexCompare a b = 0 ↔ a = b := by
  induction a generalizing b with
  | nil => cases b <;> simp [lexCompare]
  | cons x xs ih =>
    cases b with
    | nil => simp [lexCompare]
    | cons y ys =>
      simp only [lexCompare, List.cons.injEq]
      split_ifs with h1 h2
      · simp [ne_of_lt h1]
      · simp [ne_of_gt h2]
      · have hxy : x = y := le_antisymm (not_lt.1 h2) (not_lt.1 h1)
        simp [hxy, ih]

theorem lexCompare_neg_iff {α : Type} [LinearOrder α] (a b : List α) :
    lexCompare a b < 0 ↔ 0 < lexCompare b a := by
  induction a generalizing b with
  | nil => cases b <;> simp [lexCompare]
  | cons x xs ih =>
    cases b with
    | nil => simp [lexCompare]
    | cons y ys =>
      simp only [lexCompare]
      split_ifs with h1 h2 h3
      · exact absurd h1 (lt_asymm h2)
      · decide
      · decide
      · exact ih ys

theorem lexCompare_antisymm {α : Type} [LinearOrder α] (a b : List α) :
    (lexCompare a b).sign = -(lexCompare b a).sign := by
  have h1 := lexCompare_neg_iff a b
  have h2 := lexCompare_neg_iff b a
  rcases lt_trichotomy (lexCompare a b) 0 with hx | hx | hx <;>
    rcases lt_trichotomy (lexCompare b a) 0 with hy | hy | hy <;>
    simp [Int.sign_eq_neg_one_of_neg, Int.sign_eq_one_of_pos, hx, hy] <;>
    omega

theorem lexCompare_trans {α : Type} [LinearOrder α] (a b c : List α)
    (hab : lexCompare a b < 0) (hbc : lexCompare b c < 0) : lexCompare a c < 0 := by
  induction a generalizing b c with
  | nil =>
    cases c with
    | nil => cases b <;> simp [lexCompare] at hab hbc
    | cons z zs => simp [lexCompare]
  | cons x xs ih =>
    cases b with
    | nil => simp [lexCompare] at hab
    | cons y ys =>
      cases c with
      | nil => simp [lexCompare] at hbc
      | cons z zs =>
        simp only [lexCompare] at hab hbc ⊢
        split_ifs at hab with h1 h2
        · split_ifs at hbc with h3 h4
          · simp [lt_trans h1 h3]
          · omega
          · have hyz : y = z := le_antisymm (not_lt.1 h4) (not_lt.1 h3)
            subst hyz
            simp [h1]
        · omega
        · have hxy : x = y := le_antisymm (not_lt.1 h2) (not_lt.1 h1)
          subst hxy
          split_ifs at hbc with h3 h4
          · simp [h3]
          · omega
          · simp only [h3, h4, if_false]
            exact ih ys zs hab hbc

theorem lexCompare_consistent {α : Type} [LinearOrder α] :
    Consistent (lexCompare : List α → List α → Int) (fun l => l) where
  zero_iff := lexCompare_eq_zero_iff
  antisymm := lexCompare_antisymm
  trans := lexCompare_trans

theorem NGramCompare_consistent :
    Consistent Hypothesis.NGramCompare Hypothesis.lmContext where
  zero_iff a b := lexCompare_eq_zero_iff a.lmContext b.lmContext
  antisymm a b := lexCompare_antisymm a.lmContext b.lmContext
  trans a b c := lexCompare_trans a.lmContext b.lmContext c.lmContext

theorem Compare_consistent :
    Consistent WordsBitmap.Compare (fun w : WordsBitmap => w) where
  zero_iff := lexCompare_eq_zero_iff
  antisymm := lexCompare_antisymm
  trans := lexCompare_trans

/-! ## Facts about the recombination order -/

section Order

variable {ngramCompare : Hypothesis → Hypothesis → Int}
  {bitmapCompare : WordsBitmap → WordsBitmap → Int}

theorem orderer_eq_true_iff (a b : Hypothesis) :
    HypothesisRecombinationOrderer ngramCompare bitmapCompare a b = true ↔
      ngramCompare a b < 0 ∨
        (ngramCompare a b = 0 ∧ bitmapCompare a.coverage b.coverage < 0) := by
  unfold HypothesisRecombinationOrderer Hypothesis.GetWordsBitmap
  by_cases h : ngramCompare a b = 0
  · simp [h]
  · simp [h]

theorem comparer_eq_true_iff (a b : Hypothesis) :
    HypothesisRecombinationComparer ngramCompare bitmapCompare a b = true ↔
      ngramCompare a b = 0 ∧ bitmapCompare a.coverage b.coverage = 0 := by
  unfold HypothesisRecombinationComparer Hypothesis.GetWordsBitmap
  by_cases h : ngramCompare a b = 0 <;> simp [h]

theorem orderer_irrefl
    (hN : ThreeWay ngramCompare Hypothesis.lmContext)
    (hB : ThreeWay bitmapCompare (fun w : WordsBitmap => w)) (a : Hypothesis) :
    HypothesisRecombinationOrderer ngramCompare bitmapCompare a a = false := by
  have h1 := hN.self_zero a
  have h2 := hB.self_zero a.coverage
  rw [Bool.eq_false_iff]
  intro h
  rw [orderer_eq_true_iff] at h
  omega

theorem orderer_asymm
    (hN : ThreeWay ngramCompare Hypothesis.lmContext)
    (hB : ThreeWay bitmapCompare (fun w : WordsBitmap => w)) (a b : Hypothesis)
    (hab : HypothesisRecombinationOrderer ngramCompare bitmapCompare a b = true) :
    HypothesisRecombinationOrderer ngramCompare bitmapCompare b a = false := by
  rw [Bool.eq_false_iff]
  intro hba
  rw [orderer_eq_true_iff] at hab hba
  have h1 := hN.neg_iff a b
  have h2 := hN.zero_symm a b
  have h3 := hB.neg_iff a.coverage b.coverage
  omega

theorem orderer_trans
    (hN : Consistent ngramCompare Hypothesis.lmContext)
    (hB : Consistent bitmapCompare (fun w : WordsBitmap => w)) {a b c : Hypothesis}
    (hab : HypothesisRecombinationOrderer ngramCompare bitmapCompare a b = true)
    (hbc : HypothesisRecombinationOrderer ngramCompare bitmapCompare b c = true) :
    HypothesisRecombinationOrderer ngramCompare bitmapCompare a c = true := by
  rw [orderer_eq_true_iff] at hab hbc ⊢
  rcases hab with hab | ⟨hab, hab'⟩ <;> rcases hbc with hbc | ⟨hbc, hbc'⟩
  · exact Or.inl (hN.trans a b c hab hbc)
  · exact Or.inl (hN.neg_of_neg_of_zero hab hbc)
  · exact Or.inl (hN.neg_of_zero_of_neg hab hbc)
  · refine Or.inr ⟨?_, hB.trans _ _ _ hab' hbc'⟩
    have h1 := (hN.zero_iff a b).1 hab
    have h2 := (hN.zero_iff b c).1 hbc
    exact (hN.zero_iff a c).2 (h1.trans h2)

/-- Neither of two hypotheses is ordered before the other exactly when the
comparer accepts them. -/
theorem orderer_equiv_iff_comparer
    (hN : ThreeWay ngramCompare Hypothesis.lmContext)
    (hB : ThreeWay bitmapCompare (fun w : WordsBitmap => w)) (a b : Hypothesis) :
    (HypothesisRecombinationOrderer ngramCompare bitmapCompare a b = false ∧
      HypothesisRecombinationOrderer ngramCompare bitmapCompare b a = false) ↔
    HypothesisRecombinationComparer ngramCompare bitmapCompare a b = true := by
  rw [comparer_eq_true_iff, Bool.eq_false_iff, Bool.eq_false_iff, Ne, Ne,
    orderer_eq_true_iff, orderer_eq_true_iff]
  have h1 := hN.neg_iff a b
  have h2 := hN.zero_symm a b
  have h3 := hN.pos_iff a b
  have h4 := hB.neg_iff a.coverage b.coverage
  have h5 := hB.zero_symm a.coverage b.coverage
  have h6 := hB.pos_iff a.coverage b.coverage
  omega

theorem comparer_false_of_orderer (a b : Hypothesis)
    (h : HypothesisRecombinationOrderer ngramCompare bitmapCompare a b = true) :
    HypothesisRecombinationComparer ngramCompare bitmapCompare a b = false := by
  rw [Bool.eq_false_iff]
  intro h'
  rw [orderer_eq_true_iff] at h
  rw [comparer_eq_true_iff] at h'
  omega

end Order

/-! ## Facts about the ordered set -/

section SetFacts

variable {lt : Hypothesis → Hypothesis → Bool}

theorem setInsert_false_eq (x : Hypothesis) (l : List Hypothesis)
    (h : (setInsert lt x l).2 = false) : (setInsert lt x l).1 = l := by
  induction l with
  | nil => simp [setInsert] at h
  | cons y ys ih =>
    simp only [setInsert] at h ⊢
    split_ifs at h ⊢ with h1 h2
    · simp only at h ⊢
      rw [ih h]
    · rfl

theorem setInsert_true_perm (x : Hypothesis) (l : List Hypothesis)
    (h : (setInsert lt x l).2 = true) : (setInsert lt x l).1.Perm (x :: l) := by
  induction l with
  | nil => simp [setInsert]
  | cons y ys ih =>
    simp only [setInsert] at h ⊢
    split_ifs at h ⊢ with h1 h2
    · simp only at h ⊢
      exact ((ih h).cons y).trans (List.Perm.swap x y ys)
    · exact List.Perm.refl _

theorem setInsert_mem (x z : Hypothesis) (l : List Hypothesis)
    (h : z ∈ (setInsert lt x l).1) : z = x ∨ z ∈ l := by
  cases hb : (setInsert lt x l).2 with
  | false => rw [setInsert_false_eq x l hb] at h; exact Or.inr h
  | true =>
    have := (setInsert_true_perm x l hb).mem_iff.1 h
    simpa using this

theorem setInsert_pairwise
    (htrans : ∀ a b c, lt a b = true → lt b c = true → lt a c = true)
    (x : Hypothesis) (l : List Hypothesis)
    (hl : l.Pairwise (fun a b => lt a b = true)) :
    (setInsert lt x l).1.Pairwise (fun a b => lt a b = true) := by
  induction l with
  | nil => simp [setInsert]
  | cons y ys ih =>
    rw [List.pairwise_cons] at hl
    simp only [setInsert]
    split_ifs with h1 h2
    · simp only
      rw [List.pairwise_cons]
      refine ⟨?_, ih hl.2⟩
      intro z hz
      rcases setInsert_mem x z ys hz with rfl | hz
      · exact h1
      · exact hl.1 z hz
    · rw [List.pairwise_cons, List.pairwise_cons]
      refine ⟨?_, hl⟩
      intro z hz
      rcases List.mem_cons.1 hz with rfl | hz
      · exact h2
      · exact htrans _ _ _ h2 (hl.1 z hz)
    · exact List.pairwise_cons.2 hl

/-- In a sorted list that holds an element equivalent to `x`, the insertion of
`x` changes nothing. -/
theorem setInsert_of_equiv_mem (x m : Hypothesis) (l : List Hypothesis)
    (hl : l.Pairwise (fun a b => lt a b = true)) (hm : m ∈ l)
    (hmx : lt m x = false) (hxm : lt x m = false)
    (hbelow : ∀ y, lt y m = true → lt y x = true) :
    setInsert lt x l = (l, false) := by
  induction l with
  | nil => simp at hm
  | cons y ys ih =>
    rw [List.pairwise_cons] at hl
    rcases List.mem_cons.1 hm with rfl | hm
    · simp [setInsert, hmx, hxm]
    · have hy : lt y x = true := hbelow y (hl.1 m hm)
      simp [setInsert, hy, ih hl.2 hm]

/-- When every element is strictly before or strictly after `x`, the insertion
of `x` succeeds. -/
theorem setInsert_of_no_equiv (x : Hypothesis) (l : List Hypothesis)
    (h : ∀ m ∈ l, lt m x = true ∨ lt x m = true) :
    (setInsert lt x l).2 = true := by
  induction l with
  | nil => simp [setInsert]
  | cons y ys ih =>
    simp only [setInsert]
    split_ifs with h1 h2
    · exact ih (fun m hm => h m (List.mem_cons_of_mem _ hm))
    · rfl
    · rcases h y (List.mem_cons_self _ _) with h3 | h3
      · exact absurd h3 h1
      · exact absurd h3 h2

end SetFacts

/-! ## Facts about the primitives of the collection -/

section Primitives

variable {ngramCompare : Hypothesis → Hypothesis → Int}
  {bitmapCompare : WordsBitmap → WordsBitmap → Int}

theorem Detach_eq_some {st st' : State} {i : Nat} (h : Detach st i = some st') :
    i < st.coll.m_hypos.length ∧
      st' = { st with coll := { st.coll with m_hypos := st.coll.m_hypos.eraseIdx i } } := by
  unfold Detach at h
  split_ifs at h with hi
  exact ⟨hi, (Option.some.inj h).symm⟩

theorem Detach_of_lt (st : State) {i : Nat} (hi : i < st.coll.m_hypos.length) :
    Detach st i =
      some { st with coll := { st.coll with m_hypos := st.coll.m_hypos.eraseIdx i } } := by
  unfold Detach
  rw [if_pos hi]

theorem Remove_of_get (st : State) {i : Nat} {h : Hypothesis}
    (hi : st.coll.m_hypos[i]? = some h) :
    Remove st i =
      some { coll := { st.coll with m_hypos := st.coll.m_hypos.eraseIdx i },
             pool := st.pool.freeObject h } := by
  have hlt : i < st.coll.m_hypos.length := (List.getElem?_eq_some_iff.1 hi).1
  unfold Remove
  rw [hi]
  exact Detach_of_lt _ hlt

theorem Remove_eq_some {st st' : State} {i : Nat} (h : Remove st i = some st') :
    ∃ m, st.coll.m_hypos[i]? = some m ∧
      st' = { coll := { st.coll with m_hypos := st.coll.m_hypos.eraseIdx i },
              pool := st.pool.freeObject m } := by
  cases hm : st.coll.m_hypos[i]? with
  | none => simp [Remove, hm] at h
  | some m =>
    rw [Remove_of_get st hm] at h
    exact ⟨m, rfl, (Option.some.inj h).symm⟩

theorem AddNoPrune_eq (st : State) (h : Hypothesis) :
    AddNoPrune ngramCompare bitmapCompare st h =
      { st with coll := { st.coll with m_hypos :=
          (setInsert (HypothesisRecombinationOrderer ngramCompare bitmapCompare) h
            st.coll.m_hypos).1 } } := by
  unfold AddNoPrune
  simp

theorem key_ne_of_orderer
    (hN : ThreeWay ngramCompare Hypothesis.lmContext)
    (hB : ThreeWay bitmapCompare (fun w : WordsBitmap => w)) {a b : Hypothesis}
    (h : HypothesisRecombinationOrderer ngramCompare bitmapCompare a b = true) :
    a.recombinationKey ≠ b.recombinationKey := by
  intro hk
  simp only [Hypothesis.recombinationKey, Prod.mk.injEq] at hk
  have h1 : ngramCompare a b = 0 := (hN.zero_iff a b).2 hk.1
  have h2 : bitmapCompare a.coverage b.coverage = 0 := (hB.zero_iff _ _).2 hk.2
  rw [orderer_eq_true_iff] at h
  omega

theorem comparer_iff_key_eq
    (hN : ThreeWay ngramCompare Hypothesis.lmContext)
    (hB : ThreeWay bitmapCompare (fun w : WordsBitmap => w)) (a b : Hypothesis) :
    HypothesisRecombinationComparer ngramCompare bitmapCompare a b = true ↔
      a.lmContext = b.lmContext ∧ a.coverage = b.coverage := by
  rw [comparer_eq_true_iff, hN.zero_iff a b, hB.zero_iff]

theorem uniqueKeys_of_wellFormed
    (hN : ThreeWay ngramCompare Hypothesis.lmContext)
    (hB : ThreeWay bitmapCompare (fun w : WordsBitmap => w)) {c : HypothesisCollection}
    (h : WellFormed ngramCompare bitmapCompare c) : UniqueKeys c.m_hypos :=
  List.Pairwise.imp (fun hab => key_ne_of_orderer hN hB hab) h

theorem wellFormed_AddNoPrune
    (hN : Consistent ngramCompare Hypothesis.lmContext)
    (hB : Consistent bitmapCompare (fun w : WordsBitmap => w)) (st : State)
    (x : Hypothesis) (h : WellFormed ngramCompare bitmapCompare st.coll) :
    WellFormed ngramCompare bitmapCompare (AddNoPrune ngramCompare bitmapCompare st x).coll := by
  rw [AddNoPrune_eq]
  have htrans : ∀ a b c,
      HypothesisRecombinationOrderer ngramCompare bitmapCompare a b = true →
      HypothesisRecombinationOrderer ngramCompare bitmapCompare b c = true →
      HypothesisRecombinationOrderer ngramCompare bitmapCompare a c = true :=
    fun a b c h1 h2 => @orderer_trans _ _ hN hB a b c h1 h2
  exact setInsert_pairwise htrans x st.coll.m_hypos h

theorem wellFormed_Detach {st st' : State} {i : Nat}
    (h : WellFormed ngramCompare bitmapCompare st.coll) (hd : Detach st i = some st') :
    WellFormed ngramCompare bitmapCompare st'.coll := by
  rw [(Detach_eq_some hd).2]
  exact List.Pairwise.sublist (List.eraseIdx_sublist _ _) h

theorem wellFormed_Remove {st st' : State} {i : Nat}
    (h : WellFormed ngramCompare bitmapCompare st.coll) (hd : Remove st i = some st') :
    WellFormed ngramCompare bitmapCompare st'.coll := by
  obtain ⟨m, -, rfl⟩ := Remove_eq_some hd
  exact List.Pairwise.sublist (List.eraseIdx_sublist _ _) h

theorem wellFormed_step
    (hN : Consistent ngramCompare Hypothesis.lmContext)
    (hB : Consistent bitmapCompare (fun w : WordsBitmap => w)) {st st' : State} {op : Op}
    (h : WellFormed ngramCompare bitmapCompare st.coll)
    (hs : step ngramCompare bitmapCompare st op = some st') :
    WellFormed ngramCompare bitmapCompare st'.coll := by
  cases op with
  | addNoPrune x =>
    simp only [step, Option.some.injEq] at hs
    rw [← hs]
    exact wellFormed_AddNoPrune hN hB st x h
  | detach i => exact wellFormed_Detach h hs
  | remove i => exact wellFormed_Remove h hs

theorem wellFormed_run
    (hN : Consistent ngramCompare Hypothesis.lmContext)
    (hB : Consistent bitmapCompare (fun w : WordsBitmap => w)) (ops : List Op)
    {st st' : State} (h : WellFormed ngramCompare bitmapCompare st.coll)
    (hr : run ngramCompare bitmapCompare ops st = some st') :
    WellFormed ngramCompare bitmapCompare st'.coll := by
  induction ops generalizing st with
  | nil =>
    simp only [run, Option.some.injEq] at hr
    rw [← hr]
    exact h
  | cons op ops ih =>
    simp only [run] at hr
    cases hs : step ngramCompare bitmapCompare st op with
    | none => rw [hs] at hr; simp at hr
    | some s1 =>
      rw [hs] at hr
      exact ih (wellFormed_step hN hB h hs) hr

theorem members_step_of_removal {st st' : State} {op : Op}
    (hop : op.isRemoval = true)
    (hs : step ngramCompare bitmapCompare st op = some st') :
    ∀ m ∈ st'.coll.m_hypos, m ∈ st.coll.m_hypos := by
  cases op with
  | addNoPrune x => simp [Op.isRemoval] at hop
  | detach i =>
    rw [(Detach_eq_some hs).2]
    exact fun m hm => (List.eraseIdx_sublist _ _).subset hm
  | remove i =>
    obtain ⟨m, -, rfl⟩ := Remove_eq_some hs
    exact fun m hm => (List.eraseIdx_sublist _ _).subset hm

end Primitives

/-! ## The recombination order: claims C1, C3, C8 -/

/-- Claim C1: when `NGramCompare` and `WordsBitmap::Compare` are three-way
comparisons, the orderer treats two hypotheses as equal (neither is ordered
before the other) if and only if they have the same language-model context and
the same coverage bitmap, and if and only if the comparer returns true. -/
theorem orderer_equal_iff_same_key
    (ngramCompare : Hypothesis → Hypothesis → Int)
    (bitmapCompare : WordsBitmap → WordsBitmap → Int)
    (hN : ThreeWay ngramCompare Hypothesis.lmContext)
    (hB : ThreeWay bitmapCompare (fun w : WordsBitmap => w))
    (a b : Hypothesis) :
    ((HypothesisRecombinationOrderer ngramCompare bitmapCompare a b = false ∧
        HypothesisRecombinationOrderer ngramCompare bitmapCompare b a = false) ↔
      (a.lmContext = b.lmContext ∧ a.coverage = b.coverage)) ∧
    ((HypothesisRecombinationOrderer ngramCompare bitmapCompare a b = false ∧
        HypothesisRecombinationOrderer ngramCompare bitmapCompare b a = false) ↔
      HypothesisRecombinationComparer ngramCompare bitmapCompare a b = true) :=
  ⟨(orderer_equiv_iff_comparer hN hB a b).trans (comparer_iff_key_eq hN hB a b),
    orderer_equiv_iff_comparer hN hB a b⟩

/-- Claim C1 at `hypA`, `hypB` with the positional comparisons. -/
theorem orderer_equal_iff_same_key_witness :
    ThreeWay Hypothesis.NGramCompare Hypothesis.lmContext ∧
    ThreeWay WordsBitmap.Compare (fun w : WordsBitmap => w) ∧
    (((HypothesisRecombinationOrderer Hypothesis.NGramCompare WordsBitmap.Compare
          hypA hypB = false ∧
        HypothesisRecombinationOrderer Hypothesis.NGramCompare WordsBitmap.Compare
          hypB hypA = false) ↔
      (hypA.lmContext = hypB.lmContext ∧ hypA.coverage = hypB.coverage)) ∧
    ((HypothesisRecombinationOrderer Hypothesis.NGramCompare WordsBitmap.Compare
          hypA hypB = false ∧
        HypothesisRecombinationOrderer Hypothesis.NGramCompare WordsBitmap.Compare
          hypB hypA = false) ↔
      HypothesisRecombinationComparer Hypothesis.NGramCompare WordsBitmap.Compare
        hypA hypB = true)) :=
  ⟨NGramCompare_consistent.toThreeWay, Compare_consistent.toThreeWay,
    orderer_equal_iff_same_key Hypothesis.NGramCompare WordsBitmap.Compare
      NGramCompare_consistent.toThreeWay Compare_consistent.toThreeWay hypA hypB⟩

/-- Claim C3: when `NGramCompare` and `WordsBitmap::Compare` are consistent
three-way comparisons, the orderer is irreflexive, asymmetric and transitive,
and of two hypotheses with different keys exactly one is ordered before the
other. -/
theorem orderer_strict_total_order
    (ngramCompare : Hypothesis → Hypothesis → Int)
    (bitmapCompare : WordsBitmap → WordsBitmap → Int)
    (hN : Consistent ngramCompare Hypothesis.lmContext)
    (hB : Consistent bitmapCompare (fun w : WordsBitmap => w)) :
    (∀ a, HypothesisRecombinationOrderer ngramCompare bitmapCompare a a = false) ∧
    (∀ a b, HypothesisRecombinationOrderer ngramCompare bitmapCompare a b = true →
      HypothesisRecombinationOrderer ngramCompare bitmapCompare b a = false) ∧
    (∀ a b c, HypothesisRecombinationOrderer ngramCompare bitmapCompare a b = true →
      HypothesisRecombinationOrderer ngramCompare bitmapCompare b c = true →
      HypothesisRecombinationOrderer ngramCompare bitmapCompare a c = true) ∧
    (∀ a b, a.recombinationKey ≠ b.recombinationKey →
      (HypothesisRecombinationOrderer ngramCompare bitmapCompare a b = true ∧
        HypothesisRecombinationOrderer ngramCompare bitmapCompare b a = false) ∨
      (HypothesisRecombinationOrderer ngramCompare bitmapCompare a b = false ∧
        HypothesisRecombinationOrderer ngramCompare bitmapCompare b a = true)) := by
  refine ⟨orderer_irrefl hN.toThreeWay hB.toThreeWay,
    orderer_asymm hN.toThreeWay hB.toThreeWay,
    fun a b c h1 h2 => orderer_trans hN hB h1 h2, ?_⟩
  intro a b hne
  cases hab : HypothesisRecombinationOrderer ngramCompare bitmapCompare a b with
  | true => exact Or.inl ⟨rfl, orderer_asymm hN.toThreeWay hB.toThreeWay a b hab⟩
  | false =>
    refine Or.inr ⟨rfl, ?_⟩
    cases hba : HypothesisRecombinationOrderer ngramCompare bitmapCompare b a with
    | true => rfl
    | false =>
      exfalso
      apply hne
      have hk := (comparer_iff_key_eq hN.toThreeWay hB.toThreeWay a b).1
        ((orderer_equiv_iff_comparer hN.toThreeWay hB.toThreeWay a b).1 ⟨hab, hba⟩)
      simp only [Hypothesis.recombinationKey, Prod.mk.injEq]
      exact hk

/-- Claim C3 for the positional comparisons. -/
theorem orderer_strict_total_order_witness :
    (∀ a, HypothesisRecombinationOrderer Hypothesis.NGramCompare WordsBitmap.Compare
      a a = false) ∧
    (∀ a b, HypothesisRecombinationOrderer Hypothesis.NGramCompare WordsBitmap.Compare
        a b = true →
      HypothesisRecombinationOrderer Hypothesis.NGramCompare WordsBitmap.Compare
        b a = false) ∧
    (∀ a b c, HypothesisRecombinationOrderer Hypothesis.NGramCompare WordsBitmap.Compare
        a b = true →
      HypothesisRecombinationOrderer Hypothesis.NGramCompare WordsBitmap.Compare
        b c = true →
      HypothesisRecombinationOrderer Hypothesis.NGramCompare WordsBitmap.Compare
        a c = true) ∧
    (∀ a b, a.recombinationKey ≠ b.recombinationKey →
      (HypothesisRecombinationOrderer Hypothesis.NGramCompare WordsBitmap.Compare
          a b = true ∧
        HypothesisRecombinationOrderer Hypothesis.NGramCompare WordsBitmap.Compare
          b a = false) ∨
      (HypothesisRecombinationOrderer Hypothesis.NGramCompare WordsBitmap.Compare
          a b = false ∧
        HypothesisRecombinationOrderer Hypothesis.NGramCompare WordsBitmap.Compare
          b a = true)) :=
  orderer_strict_total_order Hypothesis.NGramCompare WordsBitmap.Compare
    NGramCompare_consistent Compare_consistent

/-- Claim C8: the order is lexicographic with the language-model context
dominant: when `NGramCompare(a,b)` is not 0 the orderer returns
`NGramCompare(a,b) < 0`, whatever the bitmap comparison is; when it is 0 the
orderer returns `a.coverage.Compare(b.coverage) < 0`. -/
theorem orderer_lexicographic
    (ngramCompare : Hypothesis → Hypothesis → Int)
    (bitmapCompare bitmapCompare2 : WordsBitmap → WordsBitmap → Int)
    (a b : Hypothesis) :
    (ngramCompare a b ≠ 0 →
      HypothesisRecombinationOrderer ngramCompare bitmapCompare a b =
        decide (ngramCompare a b < 0) ∧
      HypothesisRecombinationOrderer ngramCompare bitmapCompare2 a b =
        HypothesisRecombinationOrderer ngramCompare bitmapCompare a b) ∧
    (ngramCompare a b = 0 →
      HypothesisRecombinationOrderer ngramCompare bitmapCompare a b =
        decide (bitmapCompare a.GetWordsBitmap b.GetWordsBitmap < 0)) := by
  unfold HypothesisRecombinationOrderer
  constructor
  · intro h
    simp [h]
  · intro h
    simp [h]

/-- Claim C8 at `hypA`, `hypC` (contexts differ) and `hypA`, `hypB` (contexts
agree), with the positional comparisons. -/
theorem orderer_lexicographic_witness :
    (HypothesisRecombinationOrderer Hypothesis.NGramCompare WordsBitmap.Compare
        hypA hypC = decide (Hypothesis.NGramCompare hypA hypC < 0) ∧
      HypothesisRecombinationOrderer Hypothesis.NGramCompare (fun _ _ => 1) hypA hypC =
        HypothesisRecombinationOrderer Hypothesis.NGramCompare WordsBitmap.Compare
          hypA hypC) ∧
    HypothesisRecombinationOrderer Hypothesis.NGramCompare WordsBitmap.Compare
        hypA hypB =
      decide (WordsBitmap.Compare hypA.GetWordsBitmap hypB.GetWordsBitmap < 0) :=
  ⟨(orderer_lexicographic Hypothesis.NGramCompare WordsBitmap.Compare (fun _ _ => 1)
      hypA hypC).1 (by decide),
    (orderer_lexicographic Hypothesis.NGramCompare WordsBitmap.Compare (fun _ _ => 1)
      hypA hypB).2 (by decide)⟩

/-! ## The primitives of the collection: claims C2, C6, C9, C10 -/

/-- Claim C2: uniqueness invariant.  With consistent three-way comparisons,
after every sequence of `AddNoPrune`, `Detach` and `Remove` calls on an
initially empty collection no two members have equal recombination keys; and
on every ordered member set each of the three operations keeps the set ordered
and free of two members with equal keys (the removals keep the predicate on
any member list). -/
theorem uniqueness_invariant
    (ngramCompare : Hypothesis → Hypothesis → Int)
    (bitmapCompare : WordsBitmap → WordsBitmap → Int)
    (hN : Consistent ngramCompare Hypothesis.lmContext)
    (hB : Consistent bitmapCompare (fun w : WordsBitmap => w)) :
    (∀ (ops : List Op) (st st' : State), st.coll.m_hypos = [] →
      run ngramCompare bitmapCompare ops st = some st' →
      UniqueKeys st'.coll.m_hypos) ∧
    (∀ st : State, WellFormed ngramCompare bitmapCompare st.coll →
      UniqueKeys st.coll.m_hypos ∧
      (∀ h, WellFormed ngramCompare bitmapCompare
          (AddNoPrune ngramCompare bitmapCompare st h).coll ∧
        UniqueKeys (AddNoPrune ngramCompare bitmapCompare st h).coll.m_hypos) ∧
      (∀ i st', Detach st i = some st' →
        WellFormed ngramCompare bitmapCompare st'.coll ∧ UniqueKeys st'.coll.m_hypos) ∧
      (∀ i st', Remove st i = some st' →
        WellFormed ngramCompare bitmapCompare st'.coll ∧ UniqueKeys st'.coll.m_hypos)) ∧
    (∀ (st st' : State) (i : Nat), UniqueKeys st.coll.m_hypos →
      Detach st i = some st' ∨ Remove st i = some st' →
      UniqueKeys st'.coll.m_hypos) := by
  have hu : ∀ {c : HypothesisCollection},
      WellFormed ngramCompare bitmapCompare c → UniqueKeys c.m_hypos :=
    fun h => uniqueKeys_of_wellFormed hN.toThreeWay hB.toThreeWay h
  refine ⟨?_, ?_, ?_⟩
  · intro ops st st' hempty hr
    have h0 : WellFormed ngramCompare bitmapCompare st.coll := by
      unfold WellFormed
      rw [hempty]
      exact List.Pairwise.nil
    exact hu (wellFormed_run hN hB ops h0 hr)
  · intro st hwf
    refine ⟨hu hwf, fun h => ?_, fun i st' hd => ?_, fun i st' hd => ?_⟩
    · exact ⟨wellFormed_AddNoPrune hN hB st h hwf,
        hu (wellFormed_AddNoPrune hN hB st h hwf)⟩
    · exact ⟨wellFormed_Detach hwf hd, hu (wellFormed_Detach hwf hd)⟩
    · exact ⟨wellFormed_Remove hwf hd, hu (wellFormed_Remove hwf hd)⟩
  · intro st st' i huk hs
    rcases hs with hd | hd
    · rw [(Detach_eq_some hd).2]
      exact List.Pairwise.sublist (List.eraseIdx_sublist _ _) huk
    · obtain ⟨m, -, rfl⟩ := Remove_eq_some hd
      exact List.Pairwise.sublist (List.eraseIdx_sublist _ _) huk

/-- Claim C2 for the positional comparisons: in particular the run that adds
`hypA`, `hypB` (same key) and `hypC` ends with unique keys. -/
theorem uniqueness_invariant_witness :
    Consistent Hypothesis.NGramCompare Hypothesis.lmContext ∧
    Consistent WordsBitmap.Compare (fun w : WordsBitmap => w) ∧
    run Hypothesis.NGramCompare WordsBitmap.Compare
        [.addNoPrune hypA, .addNoPrune hypB, .addNoPrune hypC]
        ⟨emptyCollection, []⟩ =
      some ⟨{ emptyCollection with m_hypos := [hypA, hypC] }, []⟩ ∧
    UniqueKeys [hypA, hypC] :=
  ⟨NGramCompare_consistent, Compare_consistent, rfl,
    (uniqueness_invariant Hypothesis.NGramCompare WordsBitmap.Compare
      NGramCompare_consistent Compare_consistent).1
      [.addNoPrune hypA, .addNoPrune hypB, .addNoPrune hypC]
      ⟨emptyCollection, []⟩ ⟨{ emptyCollection with m_hypos := [hypA, hypC] }, []⟩
      rfl rfl⟩

theorem freeCount_step_of_removal {ngramCompare : Hypothesis → Hypothesis → Int}
    {bitmapCompare : WordsBitmap → WordsBitmap → Int} {st st' : State} {op : Op}
    {h : Hypothesis} (hop : op.isRemoval = true) (hh : h ∉ st.coll.m_hypos)
    (hs : step ngramCompare bitmapCompare st op = some st') :
    st'.pool.freeCount h = st.pool.freeCount h := by
  cases op with
  | addNoPrune x => simp [Op.isRemoval] at hop
  | detach i => rw [(Detach_eq_some hs).2]
  | remove i =>
    obtain ⟨m, hm, rfl⟩ := Remove_eq_some hs
    have hne : m ≠ h := fun e => hh (e ▸ List.getElem?_mem hm)
    simp [ObjectPool.freeCount, ObjectPool.freeObject, List.count_cons, hne]

theorem freeCount_run_of_removal {ngramCompare : Hypothesis → Hypothesis → Int}
    {bitmapCompare : WordsBitmap → WordsBitmap → Int} (ops : List Op)
    {st st' : State} {h : Hypothesis} (hops : ∀ op ∈ ops, op.isRemoval = true)
    (hh : h ∉ st.coll.m_hypos)
    (hr : run ngramCompare bitmapCompare ops st = some st') :
    st'.pool.freeCount h = st.pool.freeCount h := by
  induction ops generalizing st with
  | nil =>
    simp only [run, Option.some.injEq] at hr
    rw [← hr]
  | cons op ops ih =>
    simp only [run] at hr
    cases hs : step ngramCompare bitmapCompare st op with
    | none => rw [hs] at hr; simp at hr
    | some s1 =>
      rw [hs] at hr
      have hop := hops op (List.mem_cons_self _ _)
      have hh1 : h ∉ s1.coll.m_hypos :=
        fun hm => hh (members_step_of_removal hop hs h hm)
      rw [ih (fun o ho => hops o (List.mem_cons_of_mem _ ho)) hh1 hr,
        freeCount_step_of_removal hop hh hs]

/-- Claim C6: `Remove` through an iterator at the member `h` hands `h` to the
pool exactly once (its free count rises by 1, no other count changes) and
erases exactly `h`: the other members and the five other fields stay, `h` is
no longer a member, and no later sequence of `Detach` and `Remove` calls frees
`h` again.  `Detach` through the same iterator erases the same member and
leaves the pool alone. -/
theorem Remove_frees_once
    (ngramCompare : Hypothesis → Hypothesis → Int)
    (bitmapCompare : WordsBitmap → WordsBitmap → Int)
    (st : State) (iter : Nat) (h : Hypothesis)
    (hnd : st.coll.m_hypos.Nodup) (hi : st.coll.m_hypos[iter]? = some h) :
    ∃ st' d : State, Remove st iter = some st' ∧ Detach st iter = some d ∧
      st'.pool.freeCount h = st.pool.freeCount h + 1 ∧
      (∀ x, x ≠ h → st'.pool.freeCount x = st.pool.freeCount x) ∧
      st'.coll.m_hypos = st.coll.m_hypos.eraseIdx iter ∧
      (∀ x, x ∈ st'.coll.m_hypos ↔ x ∈ st.coll.m_hypos ∧ x ≠ h) ∧
      st'.coll.size + 1 = st.coll.size ∧
      st'.coll.m_bestScore = st.coll.m_bestScore ∧
      st'.coll.m_worstScore = st.coll.m_worstScore ∧
      st'.coll.m_beamThreshold = st.coll.m_beamThreshold ∧
      st'.coll.m_maxHypoStackSize = st.coll.m_maxHypoStackSize ∧
      st'.coll.m_nBestIsEnabled = st.coll.m_nBestIsEnabled ∧
      (∀ (ops : List Op) (st'' : State), (∀ op ∈ ops, op.isRemoval = true) →
        run ngramCompare bitmapCompare ops st' = some st'' →
        st''.pool.freeCount h = st'.pool.freeCount h) ∧
      d.coll = st'.coll ∧ d.pool = st.pool := by
  have hlt : iter < st.coll.m_hypos.length := (List.getElem?_eq_some_iff.1 hi).1
  have hget : st.coll.m_hypos[iter] = h := (List.getElem?_eq_some_iff.1 hi).2
  have herase : st.coll.m_hypos.eraseIdx iter = st.coll.m_hypos.erase h := by
    rw [← hget]
    exact (List.Nodup.erase_getElem hnd iter hlt).symm
  have hmem : ∀ x, x ∈ st.coll.m_hypos.eraseIdx iter ↔ x ∈ st.coll.m_hypos ∧ x ≠ h := by
    intro x
    rw [herase, List.Nodup.mem_erase_iff hnd]
    exact and_comm
  refine ⟨_, _, Remove_of_get st hi, Detach_of_lt st hlt, ?_, ?_, rfl, hmem, ?_,
    rfl, rfl, rfl, rfl, rfl, ?_, rfl, rfl⟩
  · simp [ObjectPool.freeCount, ObjectPool.freeObject]
  · intro x hx
    simp [ObjectPool.freeCount, ObjectPool.freeObject, List.count_cons, Ne.symm hx]
  · simp only [HypothesisCollection.size, List.length_eraseIdx, hlt, if_true]
    omega
  · intro ops st'' hops hr
    exact freeCount_run_of_removal ops hops (fun hm => ((hmem h).1 hm).2 rfl) hr

/-- Claim C6 at the first member of `sampleState`. -/
theorem Remove_frees_once_witness :
    sampleState.coll.m_hypos.Nodup ∧ sampleState.coll.m_hypos[0]? = some hypB ∧
    ∃ st' d : State, Remove sampleState 0 = some st' ∧ Detach sampleState 0 = some d ∧
      st'.pool.freeCount hypB = sampleState.pool.freeCount hypB + 1 ∧
      (∀ x, x ≠ hypB → st'.pool.freeCount x = sampleState.pool.freeCount x) ∧
      st'.coll.m_hypos = sampleState.coll.m_hypos.eraseIdx 0 ∧
      (∀ x, x ∈ st'.coll.m_hypos ↔ x ∈ sampleState.coll.m_hypos ∧ x ≠ hypB) ∧
      st'.coll.size + 1 = sampleState.coll.size ∧
      st'.coll.m_bestScore = sampleState.coll.m_bestScore ∧
      st'.coll.m_worstScore = sampleState.coll.m_worstScore ∧
      st'.coll.m_beamThreshold = sampleState.coll.m_beamThreshold ∧
      st'.coll.m_maxHypoStackSize = sampleState.coll.m_maxHypoStackSize ∧
      st'.coll.m_nBestIsEnabled = sampleState.coll.m_nBestIsEnabled ∧
      (∀ (ops : List Op) (st'' : State), (∀ op ∈ ops, op.isRemoval = true) →
        run Hypothesis.NGramCompare WordsBitmap.Compare ops st' = some st'' →
        st''.pool.freeCount hypB = st'.pool.freeCount hypB) ∧
      d.coll = st'.coll ∧ d.pool = sampleState.pool :=
  ⟨by decide, rfl,
    Remove_frees_once Hypothesis.NGramCompare WordsBitmap.Compare sampleState 0 hypB
      (by decide) rfl⟩

/-- Claim C9: when the best score is at least, and the worst score at most,
the score of every member, then `Detach` and `Remove` through an iterator at a
member both succeed, leave the two bounds unchanged, and the bounds still
enclose the score of every member that is left. -/
theorem bounds_conservative_under_removal (st : State) (iter : Nat)
    (hi : iter < st.coll.size)
    (hb : ∀ m ∈ st.coll.m_hypos,
      m.score ≤ st.coll.m_bestScore ∧ st.coll.m_worstScore ≤ m.score) :
    ∃ d r : State, Detach st iter = some d ∧ Remove st iter = some r ∧
      d.coll.m_bestScore = st.coll.m_bestScore ∧
      d.coll.m_worstScore = st.coll.m_worstScore ∧
      r.coll.m_bestScore = st.coll.m_bestScore ∧
      r.coll.m_worstScore = st.coll.m_worstScore ∧
      (∀ m ∈ d.coll.m_hypos,
        m.score ≤ d.coll.m_bestScore ∧ d.coll.m_worstScore ≤ m.score) ∧
      (∀ m ∈ r.coll.m_hypos,
        m.score ≤ r.coll.m_bestScore ∧ r.coll.m_worstScore ≤ m.score) := by
  have hlt : iter < st.coll.m_hypos.length := hi
  have hget : st.coll.m_hypos[iter]? = some st.coll.m_hypos[iter] :=
    List.getElem?_eq_getElem hlt
  refine ⟨_, _, Detach_of_lt st hlt, Remove_of_get st hget, rfl, rfl, rfl, rfl, ?_, ?_⟩
  · intro m hm
    exact hb m ((List.eraseIdx_sublist _ _).subset hm)
  · intro m hm
    exact hb m ((List.eraseIdx_sublist _ _).subset hm)

/-- Claim C9 at the first member of `sampleState`. -/
theorem bounds_conservative_under_removal_witness :
    0 < sampleState.coll.size ∧
    (∀ m ∈ sampleState.coll.m_hypos,
      m.score ≤ sampleState.coll.m_bestScore ∧ sampleState.coll.m_worstScore ≤ m.score) ∧
    ∃ d r : State, Detach sampleState 0 = some d ∧ Remove sampleState 0 = some r ∧
      d.coll.m_bestScore = sampleState.coll.m_bestScore ∧
      d.coll.m_worstScore = sampleState.coll.m_worstScore ∧
      r.coll.m_bestScore = sampleState.coll.m_bestScore ∧
      r.coll.m_worstScore = sampleState.coll.m_worstScore ∧
      (∀ m ∈ d.coll.m_hypos,
        m.score ≤ d.coll.m_bestScore ∧ d.coll.m_worstScore ≤ m.score) ∧
      (∀ m ∈ r.coll.m_hypos,
        m.score ≤ r.coll.m_bestScore ∧ r.coll.m_worstScore ≤ m.score) :=
  have hb : ∀ m ∈ sampleState.coll.m_hypos,
      m.score ≤ sampleState.coll.m_bestScore ∧
        sampleState.coll.m_worstScore ≤ m.score := by
    simp [sampleState, emptyCollection, hypB, hypC]
  ⟨by decide, hb, bounds_conservative_under_removal sampleState 0 (by decide) hb⟩

/-- Claim C10: `AddNoPrune` never displaces a representative.  On an ordered
member set with consistent three-way comparisons: when a member with the
recombination key of `h` exists, `AddNoPrune h` leaves the whole state (member
set, size, score bounds, pool) unchanged, whatever the score of `h`; when no
such member exists, the member set becomes the old one plus `h`, the size
rises by 1, and the pool and the other fields are unchanged. -/
theorem AddNoPrune_never_displaces
    (ngramCompare : Hypothesis → Hypothesis → Int)
    (bitmapCompare : WordsBitmap → WordsBitmap → Int)
    (hN : Consistent ngramCompare Hypothesis.lmContext)
    (hB : Consistent bitmapCompare (fun w : WordsBitmap => w))
    (st : State) (h : Hypothesis)
    (hwf : WellFormed ngramCompare bitmapCompare st.coll) :
    ((∃ m ∈ st.coll.m_hypos, m.recombinationKey = h.recombinationKey) →
      AddNoPrune ngramCompare bitmapCompare st h = st ∧
      (AddNoPrune ngramCompare bitmapCompare st h).coll.size = st.coll.size) ∧
    ((∀ m ∈ st.coll.m_hypos, m.recombinationKey ≠ h.recombinationKey) →
      (AddNoPrune ngramCompare bitmapCompare st h).coll.m_hypos.Perm
        (h :: st.coll.m_hypos) ∧
      (AddNoPrune ngramCompare bitmapCompare st h).coll.size = st.coll.size + 1 ∧
      (AddNoPrune ngramCompare bitmapCompare st h).pool = st.pool ∧
      (AddNoPrune ngramCompare bitmapCompare st h).coll.m_bestScore =
        st.coll.m_bestScore ∧
      (AddNoPrune ngramCompare bitmapCompare st h).coll.m_worstScore =
        st.coll.m_worstScore ∧
      (AddNoPrune ngramCompare bitmapCompare st h).coll.m_beamThreshold =
        st.coll.m_beamThreshold ∧
      (AddNoPrune ngramCompare bitmapCompare st h).coll.m_maxHypoStackSize =
        st.coll.m_maxHypoStackSize ∧
      (AddNoPrune ngramCompare bitmapCompare st h).coll.m_nBestIsEnabled =
        st.coll.m_nBestIsEnabled) := by
  have hkey : ∀ a b : Hypothesis, a.recombinationKey = b.recombinationKey ↔
      HypothesisRecombinationComparer ngramCompare bitmapCompare a b = true := by
    intro a b
    rw [comparer_iff_key_eq hN.toThreeWay hB.toThreeWay]
    simp [Hypothesis.recombinationKey]
  constructor
  · rintro ⟨m, hm, hk⟩
    have hcmp := (hkey m h).1 hk
    have heq := (orderer_equiv_iff_comparer hN.toThreeWay hB.toThreeWay m h).2 hcmp
    have hzero := (comparer_eq_true_iff m h).1 hcmp
    have hcov : m.coverage = h.coverage := (hB.zero_iff _ _).1 hzero.2
    have hbelow : ∀ y,
        HypothesisRecombinationOrderer ngramCompare bitmapCompare y m = true →
        HypothesisRecombinationOrderer ngramCompare bitmapCompare y h = true := by
      intro y hy
      rw [orderer_eq_true_iff] at hy ⊢
      rcases hy with hy | ⟨hy, hy'⟩
      · exact Or.inl (hN.neg_of_neg_of_zero hy hzero.1)
      · refine Or.inr ⟨?_, ?_⟩
        · have h1 := (hN.zero_iff y m).1 hy
          have h2 := (hN.zero_iff m h).1 hzero.1
          exact (hN.zero_iff y h).2 (h1.trans h2)
        · rw [← hcov]
          exact hy'
    have hins := setInsert_of_equiv_mem h m st.coll.m_hypos hwf hm heq.1 heq.2 hbelow
    have hst : AddNoPrune ngramCompare bitmapCompare st h = st := by
      rw [AddNoPrune_eq, hins]
    exact ⟨hst, by rw [hst]⟩
  · intro hno
    have hins : (setInsert (HypothesisRecombinationOrderer ngramCompare bitmapCompare) h
        st.coll.m_hypos).2 = true := by
      apply setInsert_of_no_equiv
      intro m hm
      have hc : ¬ HypothesisRecombinationComparer ngramCompare bitmapCompare m h = true :=
        fun hc => hno m hm ((hkey m h).2 hc)
      rw [← orderer_equiv_iff_comparer hN.toThreeWay hB.toThreeWay m h] at hc
      cases h1 : HypothesisRecombinationOrderer ngramCompare bitmapCompare m h with
      | true => exact Or.inl rfl
      | false =>
        cases h2 : HypothesisRecombinationOrderer ngramCompare bitmapCompare h m with
        | true => exact Or.inr rfl
        | false => exact absurd ⟨h1, h2⟩ hc
    have hperm := setInsert_true_perm h st.coll.m_hypos hins
    rw [AddNoPrune_eq]
    refine ⟨hperm, ?_, rfl, rfl, rfl, rfl, rfl, rfl⟩
    simp only [HypothesisCollection.size]
    rw [hperm.length_eq]
    rfl

/-- Claim C10 on `sampleState` with the positional comparisons: `hypA` has the
key of the member `hypB`. -/
theorem AddNoPrune_never_displaces_witness :
    WellFormed Hypothesis.NGramCompare WordsBitmap.Compare sampleState.coll ∧
    (∃ m ∈ sampleState.coll.m_hypos, m.recombinationKey = hypA.recombinationKey) ∧
    (AddNoPrune Hypothesis.NGramCompare WordsBitmap.Compare sampleState hypA =
        sampleState ∧
      (AddNoPrune Hypothesis.NGramCompare WordsBitmap.Compare sampleState hypA).coll.size =
        sampleState.coll.size) ∧
    (∀ m ∈ sampleState.coll.m_hypos, m.recombinationKey ≠ hypD.recombinationKey) ∧
    (AddNoPrune Hypothesis.NGramCompare WordsBitmap.Compare sampleState hypD).coll.m_hypos
      = [hypB, hypD, hypC] ∧
    (AddNoPrune Hypothesis.NGramCompare WordsBitmap.Compare sampleState hypD).coll.m_hypos.Perm
      (hypD :: sampleState.coll.m_hypos) ∧
    (AddNoPrune Hypothesis.NGramCompare WordsBitmap.Compare sampleState hypD).coll.size =
      sampleState.coll.size + 1 :=
  have hwf : WellFormed Hypothesis.NGramCompare WordsBitmap.Compare sampleState.coll := by
    unfold WellFormed
    decide
  have hex : ∃ m ∈ sampleState.coll.m_hypos,
      m.recombinationKey = hypA.recombinationKey :=
    ⟨hypB, by decide, rfl⟩
  have hno : ∀ m ∈ sampleState.coll.m_hypos,
      m.recombinationKey ≠ hypD.recombinationKey := by
    decide
  have hnew := (AddNoPrune_never_displaces Hypothesis.NGramCompare WordsBitmap.Compare
    NGramCompare_consistent Compare_consistent sampleState hypD hwf).2 hno
  ⟨hwf, hex,
    (AddNoPrune_never_displaces Hypothesis.NGramCompare WordsBitmap.Compare
      NGramCompare_consistent Compare_consistent sampleState hypA hwf).1 hex,
    hno, rfl, hnew.1, hnew.2.1⟩

/-! ## The size limit: claim C7 -/

/-- Claim C7 refuted: `SetMaxHypoStackSize(0)` leaves the stack configured with
a maximum size of 0. -/
theorem SetMaxHypoStackSize_zero_accepted :
    (SetMaxHypoStackSize emptyCollection 0).m_maxHypoStackSize = 0 ∧
    (SetMaxHypoStackSize sampleState.coll 0).m_maxHypoStackSize = 0 :=
  ⟨rfl, rfl⟩

/-- Claim C7 as amended: `SetMaxHypoStackSize(n)` has no failure path: for
every `n`, 0 included, it stores `n` as the maximum size and changes no other
field. -/
theorem SetMaxHypoStackSize_stores (c : HypothesisCollection) (n : Nat) :
    (SetMaxHypoStackSize c n).m_maxHypoStackSize = n ∧
    (SetMaxHypoStackSize c n).m_hypos = c.m_hypos ∧
    (SetMaxHypoStackSize c n).m_bestScore = c.m_bestScore ∧
    (SetMaxHypoStackSize c n).m_worstScore = c.m_worstScore ∧
    (SetMaxHypoStackSize c n).m_beamThreshold = c.m_beamThreshold ∧
    (SetMaxHypoStackSize c n).m_nBestIsEnabled = c.m_nBestIsEnabled :=
  ⟨rfl, rfl, rfl, rfl, rfl, rfl⟩

/-! ## Recombination in `AddPrune`: claim C4 -/

theorem demote_coll (s : StackState) (winner loser : Hypothesis) :
    (demote s winner loser).coll = s.coll := by
  unfold demote
  split_ifs <;> rfl

theorem enforceCapacity_of_le (s : StackState)
    (h : s.coll.m_hypos.length ≤ s.coll.m_maxHypoStackSize) : enforceCapacity s = s := by
  unfold enforceCapacity
  rw [if_neg (Nat.not_lt.2 h)]

/-- The first admission into an empty stack succeeds. -/
theorem AddPrune_empty (beamReject : Score → Score → Score → Bool) (s : StackState)
    (h : Hypothesis) (hempty : s.coll.m_hypos = []) (hmax : 0 < s.coll.m_maxHypoStackSize) :
    (AddPrune beamReject s h).coll.m_hypos = [h] ∧
    (AddPrune beamReject s h).coll.m_maxHypoStackSize = s.coll.m_maxHypoStackSize := by
  unfold AddPrune
  simp only [hempty, List.find?_nil, ne_eq, not_true_eq_false, false_and, if_false,
    setInsert, if_true]
  rw [enforceCapacity_of_le]
  · exact ⟨rfl, rfl⟩
  · exact hmax

/-- An admission into a stack whose only member has the key of the candidate
keeps the better of the two. -/
theorem AddPrune_singleton (beamReject : Score → Score → Score → Bool) (s : StackState)
    (r h : Hypothesis) (hr : s.coll.m_hypos = [r])
    (hk : r.recombinationKey = h.recombinationKey)
    (hmax : 0 < s.coll.m_maxHypoStackSize) :
    (AddPrune beamReject s h).coll.m_hypos = [if r.score < h.score then h else r] := by
  unfold AddPrune
  simp only [hr, List.find?_cons, hk, decide_True, List.map_cons, List.map_nil, if_true]
  split_ifs with hlt
  · rw [enforceCapacity_of_le]
    · rw [demote_coll]
    · rw [demote_coll]
      exact hmax
  · rw [demote_coll, hr]

/-- Claim C4: two candidates with the same language-model context and the
same coverage bitmap and scores 5 and 7, offered to an empty stack through
`AddPrune` in either order, leave the candidate with score 7 as the single
member. -/
theorem AddPrune_recombination (beamReject : Score → Score → Score → Bool)
    (s0 : StackState) (a b : Hypothesis)
    (hempty : s0.coll.m_hypos = []) (hmax : 0 < s0.coll.m_maxHypoStackSize)
    (hlm : a.lmContext = b.lmContext) (hcov : a.coverage = b.coverage)
    (ha : a.score = 5) (hb : b.score = 7) :
    (AddPrune beamReject (AddPrune beamReject s0 a) b).coll.m_hypos = [b] ∧
    (AddPrune beamReject (AddPrune beamReject s0 b) a).coll.m_hypos = [b] := by
  have hkey : a.recombinationKey = b.recombinationKey := by
    simp [Hypothesis.recombinationKey, hlm, hcov]
  have h1 := AddPrune_empty beamReject s0 a hempty hmax
  have h2 := AddPrune_empty beamReject s0 b hempty hmax
  constructor
  · rw [AddPrune_singleton beamReject _ a b h1.1 hkey (by rw [h1.2]; exact hmax)]
    have : a.score < b.score := by rw [ha, hb]; norm_num
    rw [if_pos this]
  · rw [AddPrune_singleton beamReject _ b a h2.1 hkey.symm (by rw [h2.2]; exact hmax)]
    have : ¬ b.score < a.score := by rw [ha, hb]; norm_num
    rw [if_neg this]

/-- Claim C4 at `hypA` (score 5) and `hypB` (score 7) on `emptyStack`. -/
theorem AddPrune_recombination_witness :
    emptyStack.coll.m_hypos = [] ∧ 0 < emptyStack.coll.m_maxHypoStackSize ∧
    hypA.lmContext = hypB.lmContext ∧ hypA.coverage = hypB.coverage ∧
    hypA.score = 5 ∧ hypB.score = 7 ∧
    (AddPrune sampleBeamReject (AddPrune sampleBeamReject emptyStack hypA) hypB).coll.m_hypos
      = [hypB] ∧
    (AddPrune sampleBeamReject (AddPrune sampleBeamReject emptyStack hypB) hypA).coll.m_hypos
      = [hypB] :=
  ⟨rfl, by decide, rfl, rfl, rfl, rfl,
    AddPrune_recombination sampleBeamReject emptyStack hypA hypB rfl (by decide)
      rfl rfl rfl rfl⟩

end Moses
